import Mathlib

/-!
Verification of the smudge gossip message codec
(`vendor/github.com/clockworksoul/smudge/message.go` plus the verb
enumeration file) against its natural-language specification.

Modelling conventions:
* Go byte slices are `List Nat` whose elements are byte values; machine
  integers are `Nat` with explicit `% 2 ^ w` at the points where the source
  truncates.
* Go run-time faults (index / slice out of range) are modelled explicitly:
  `decodeMembers` returns `none` and `decodeMessage` returns
  `DecodeResult.panic` exactly where the source would fault at run time
  (slice capacity is taken to be slice length).
* `ipLen` (4 for IPv4, 16 for IPv6, a process-wide constant in the source)
  is threaded as an explicit parameter.
* Components of the repository that are not part of the given sources
  (codec primitives, the `NodeStatus` ordinals, the `Broadcast` sub-codec
  and the node directory) are modelled from the spec and marked as such.
-/

/-- Modelled from the spec: a `Node` (external entity, `node.go` is not part
of the given sources) is identified by IP address + UDP response port; the
message codec reads only these two fields.  The IP is a byte list whose
length is the process address-family width. -/
structure Node where
  ip : List Nat
  port : Nat
deriving DecidableEq

/-- `messageMember` from `message.go`: one gossip assertion inside a message.
Field order follows the source; `source` is a nilable pointer in the source,
hence an `Option`. -/
structure messageMember where
  source : Option Node
  heartbeat : Nat
  node : Node
  status : Nat
deriving DecidableEq

/-- Modelled from the spec: the `Broadcast` payload entity (`broadcast.go`
is not part of the given sources): origin node, a per-origin counter, and an
opaque byte payload. -/
structure Broadcast where
  origin : Node
  index : Nat
  bytes : List Nat
deriving DecidableEq

/-- `message` from `message.go`.  `sender` and `broadcast` are nilable
pointers; `members` is a nilable slice, so `none` models Go `nil` and
`some []` models a non-nil empty slice (the distinction is observable in
`addMember` and after decoding). -/
structure message where
  sender : Option Node
  senderHeartbeat : Nat
  verb : Nat
  members : Option (List messageMember)
  broadcast : Option Broadcast
deriving DecidableEq

/-- `messageVerb` ordinals from the verb enumeration source file
(`verbPing = iota`, then `verbAck`, `verbPingRequest`,
`verbNonForwardingPing`).  `messageVerb` is a byte typedef in the source, so
verbs are modelled as plain byte values. -/
def verbPing : Nat := 0

/-- `verbAck` ordinal (see `verbPing`). -/
def verbAck : Nat := 1

/-- `verbPingRequest` ordinal (see `verbPing`). -/
def verbPingRequest : Nat := 2

/-- `verbNonForwardingPing` ordinal (see `verbPing`). -/
def verbNonForwardingPing : Nat := 3

/-- Modelled from the spec: `NodeStatus` ordinals (`status.go` is not part
of the given sources).  The spec lists `UNKNOWN, ALIVE, SUSPECTED, DEAD,
FORWARD_TO` as the enumeration, identity-mapped to wire byte ordinals. -/
def statusUnknown : Nat := 0

/-- `ALIVE` ordinal (see `statusUnknown`). -/
def statusAlive : Nat := 1

/-- `SUSPECTED` ordinal (see `statusUnknown`). -/
def statusSuspected : Nat := 2

/-- `DEAD` ordinal (see `statusUnknown`). -/
def statusDead : Nat := 3

/-- `FORWARD_TO` ordinal (`StatusForwardTo` in the source, see
`statusUnknown`). -/
def statusForwardTo : Nat := 4

/-- Modelled from the spec: `encodeUint16` writes a fixed-width big-endian
value (codec primitives are not part of the given sources).  The buffer
write at a cursor is modelled by returning the two bytes written. -/
def encodeUint16 (v : Nat) : List Nat :=
  [v / 2 ^ 8 % 256, v % 256]

/-- Modelled from the spec: `encodeUint32`, big-endian, four bytes (see
`encodeUint16`). -/
def encodeUint32 (v : Nat) : List Nat :=
  [v / 2 ^ 24 % 256, v / 2 ^ 16 % 256, v / 2 ^ 8 % 256, v % 256]

/-- Modelled from the spec: `decodeUint16 bytes p` reads a big-endian 16-bit
value at offset `p`.  The primitives perform no bounds validation
themselves; in-model, out-of-range reads are excluded by the explicit
length checks of the callers (which model where the Go code would fault). -/
def decodeUint16 (bytes : List Nat) (p : Nat) : Nat :=
  bytes.getD p 0 * 2 ^ 8 + bytes.getD (p + 1) 0

/-- Modelled from the spec: `decodeUint32 bytes p`, big-endian 32-bit read
at offset `p` (see `decodeUint16`). -/
def decodeUint32 (bytes : List Nat) (p : Nat) : Nat :=
  bytes.getD p 0 * 2 ^ 24 + bytes.getD (p + 1) 0 * 2 ^ 16 +
    bytes.getD (p + 2) 0 * 2 ^ 8 + bytes.getD (p + 3) 0

/-- One step of the Adler-32 rolling sums: `a := (a + c) % 65521`,
`b := (b + a + c) % 65521`. -/
def adler32Step : Nat × Nat → Nat → Nat × Nat
  | (a, b), c => ((a + c) % 65521, (b + a + c) % 65521)

/-- `hash/adler32` checksum as used by `encode` / `decodeMessage`:
`a` starts at 1, `b` at 0, each byte updates both sums mod 65521, and the
checksum is `b * 2 ^ 16 + a`. -/
def adler32 (bytes : List Nat) : Nat :=
  let r := bytes.foldl adler32Step (1, 0)
  r.2 * 2 ^ 16 + r.1

/-- Modelled from the spec: the external node directory
(`knownNodes.getByIP` / `CreateNodeByIP`, not part of the given sources),
abstracted as the spec suggests into a `lookupOrCreate(ip, port) -> Node`
capability that resolves an (IP, port) pair to the node with that
identity. -/
def lookupOrCreate (ip : List Nat) (port : Nat) : Node :=
  { ip := ip, port := port }

/-- `newMessage` from `message.go`: fresh message with nil members and nil
broadcast. -/
def newMessage (verb : Nat) (sender : Option Node) (senderHeartbeat : Nat) : message :=
  { sender := sender, senderHeartbeat := senderHeartbeat, verb := verb,
    members := none, broadcast := none }

/-- `addBroadcast` from `message.go`: unconditionally replaces any existing
broadcast. -/
def addBroadcast (m : message) (broadcast : Broadcast) : message :=
  { m with broadcast := some broadcast }

/-- `addMember` from `message.go`.  The mutating method is modelled as
returning the updated message together with the Go error value: on the
overflow path the source returns before appending, so the state component
is the unchanged message. -/
def addMember (m : message) (node : Node) (status : Nat) (heartbeat : Nat)
    (gossipSource : Option Node) : message × Option String :=
  let newMember : messageMember :=
    { source := gossipSource, heartbeat := heartbeat, node := node,
      status := status }
  match m.members with
  | none =>
      ({ m with members := some [newMember] }, none)
  | some ms =>
      if 63 ≤ ms.length then
        (m, some "member list overflow")
      else
        ({ m with members := some (ms ++ [newMember]) }, none)

/-- `getForwardTo` from `message.go`: first member iff it carries the
forward-to status (`len(m.members) > 0 && m.members[0].status ==
StatusForwardTo`); the verb is not consulted. -/
def getForwardTo (m : message) : Option messageMember :=
  match m.members with
  | some (first :: _) =>
      if first.status = statusForwardTo then some first else none
  | _ => none

/-- The bytes `encode` produces for one member slot: status byte, member IP,
member port, member heartbeat, then either the gossip source IP and port or
`ipLen + 2` zero bytes (the source skips the cursor over the pre-zeroed
buffer region when `source` is nil). -/
def memberSlot (ipLen : Nat) (member : messageMember) : List Nat :=
  member.status % 256 ::
    (member.node.ip ++ encodeUint16 member.node.port ++
      encodeUint32 member.heartbeat ++
      (match member.source with
       | some snode => snode.ip ++ encodeUint16 snode.port
       | none => List.replicate (ipLen + 2) 0))

/-- Modelled from the spec: `Broadcast.encode` (in `broadcast.go`, not part
of the given sources): origin IP, origin port, broadcast counter,
payload-length prefix, payload bytes. -/
def Broadcast.encode (b : Broadcast) : List Nat :=
  b.origin.ip ++ encodeUint16 b.origin.port ++ encodeUint32 b.index ++
    encodeUint16 b.bytes.length ++ b.bytes

/-- Bytes 4.. of the datagram `encode` produces: the packed verb/count byte
(`(byte(len(members)) << 2) | byte(verb)` with byte truncation as in the
source), sender port, sender heartbeat, the member slots in order, and the
broadcast section if present. -/
def encodeBody (ipLen : Nat) (m : message) (sender : Node) : List Nat :=
  let memberList := m.members.getD []
  let verbByte := memberList.length % 256 * 4 % 256 ||| m.verb % 256
  verbByte ::
    (encodeUint16 sender.port ++ encodeUint32 m.senderHeartbeat ++
      memberList.flatMap (memberSlot ipLen) ++
      (match m.broadcast with
       | some b => b.encode
       | none => []))

/-- `encode` from `message.go`: the full datagram, whose first four bytes
are the Adler-32 checksum of everything after them.  The source
dereferences `m.sender` unconditionally, so a nil sender is a run-time
fault, modelled as `none`. -/
def encode (ipLen : Nat) (m : message) : Option (List Nat) :=
  match m.sender with
  | none => none
  | some sender =>
      let body := encodeBody ipLen m sender
      some (encodeUint32 (adler32 body) ++ body)

/-- The error values decoding can produce: the checksum-integrity error
(which names the source IP, as in `errors.New("checksum failure from " +
sourceIP.String())`) and the malformed-broadcast-section error. -/
inductive DecodeError
  | checksumFailure (sourceIP : List Nat)
  | malformedBroadcast
deriving DecidableEq

/-- Outcome of `decodeMessage`: either the Go `(message, error)` pair, or a
run-time fault (index / slice out of range), which Go surfaces as a panic
rather than a returned error. -/
inductive DecodeResult
  | panic
  | result (m : message) (err : Option DecodeError)
deriving DecidableEq

/-- Modelled from the spec: `decodeBroadcast` (in `broadcast.go`, not part
of the given sources), the structural inverse of `Broadcast.encode`: origin
IP, origin port, counter, payload length, payload; a buffer too short for
the header or for the declared payload length is a malformed broadcast
section. -/
def decodeBroadcast (ipLen : Nat) (bytes : List Nat) :
    Except DecodeError Broadcast :=
  if bytes.length < ipLen + 8 then .error .malformedBroadcast
  else
    let originIP := bytes.take ipLen
    let originPort := decodeUint16 bytes ipLen
    let index := decodeUint32 bytes (ipLen + 2)
    let payloadLength := decodeUint16 bytes (ipLen + 6)
    if bytes.length < ipLen + 8 + payloadLength then .error .malformedBroadcast
    else
      .ok { origin := lookupOrCreate originIP originPort, index := index,
            bytes := (bytes.drop (ipLen + 8)).take payloadLength }

/-- `decodeMembers` from `message.go`: repeatedly consumes fixed-width
member slots while bytes remain; the `memberCount` argument is accepted but
never read.  A trailing partial slot makes the source index past the end of
the slice (a run-time fault), modelled as `none`.  The source guards the
node and source lookups with `len(ip) > 0`, which is always true because
both the IPv4 and the IPv6 branch build a non-empty 16-byte `net.IP`, so
the lookups are unconditional here. -/
def decodeMembers (ipLen : Nat) (memberCount : Nat) (bytes : List Nat) :
    Option (List messageMember) :=
  if h0 : bytes.length = 0 then some []
  else if hshort : bytes.length < 9 + ipLen + ipLen then none
  else
    let mstatus := bytes.getD 0 0
    let mip := (bytes.drop 1).take ipLen
    let mport := decodeUint16 bytes (1 + ipLen)
    let mcode := decodeUint32 bytes (3 + ipLen)
    let sip := (bytes.drop (7 + ipLen)).take ipLen
    let sport := decodeUint16 bytes (7 + ipLen + ipLen)
    let mnode := lookupOrCreate mip mport
    let snode := lookupOrCreate sip sport
    match decodeMembers ipLen memberCount (bytes.drop (9 + ipLen + ipLen)) with
    | none => none
    | some rest =>
        some ({ source := some snode, heartbeat := mcode, node := mnode,
                status := mstatus } :: rest)
termination_by bytes.length
decreasing_by simp only [List.length_drop]; omega

/-- `decodeMessage` from `message.go`.  Checksum check first (reading bytes
0..3 of a shorter datagram is a run-time fault); then the packed byte
(verb in the low 2 bits, member count in the high 6), sender port and
heartbeat (bytes 4..10, a fault if absent); the member block slice
`bytes[p:memberLastIndex]` faults when the declared member count reaches
past the end of the datagram; trailing bytes after the member block are
handed to the broadcast decoder, whose error is returned alongside the
otherwise-parsed message. -/
def decodeMessage (ipLen : Nat) (sourceIP : List Nat) (bytes : List Nat) :
    DecodeResult :=
  if bytes.length < 4 then .panic
  else
    let checksumStated := decodeUint32 bytes 0
    let checksumCalculated := adler32 (bytes.drop 4)
    if checksumCalculated ≠ checksumStated then
      .result (newMessage 255 none 0) (some (.checksumFailure sourceIP))
    else if bytes.length < 11 then .panic
    else
      let v := bytes.getD 4 0
      let verb := v &&& 0x03
      let memberCount := v >>> 2
      let senderPort := decodeUint16 bytes 5
      let senderHeartbeat := decodeUint32 bytes 7
      let sender := lookupOrCreate sourceIP senderPort
      let m : message := newMessage verb (some sender) senderHeartbeat
      let memberLastIndex := 11 + memberCount * (9 + ipLen + ipLen)
      let finish : Option (List messageMember) → DecodeResult := fun ms =>
        let m := { m with members := ms }
        if memberLastIndex < bytes.length then
          match decodeBroadcast ipLen (bytes.drop memberLastIndex) with
          | .ok b => .result { m with broadcast := some b } none
          | .error e => .result m (some e)
        else .result m none
      if 11 < bytes.length then
        if bytes.length < memberLastIndex then .panic
        else
          match decodeMembers ipLen memberCount
              ((bytes.drop 11).take (memberCount * (9 + ipLen + ipLen))) with
          | none => .panic
          | some ms => finish (some ms)
      else finish none

/-- Field-for-field message equality in the sense of the round-trip claim:
verb, sender heartbeat, sender (by directory identity), the member list
pointwise (a nil and an empty member slice both hold no members), and the
broadcast section. -/
def msgEquiv (a b : message) : Prop :=
  a.verb = b.verb ∧ a.senderHeartbeat = b.senderHeartbeat ∧
    a.sender = b.sender ∧ a.members.getD [] = b.members.getD [] ∧
    a.broadcast = b.broadcast

instance (a b : message) : Decidable (msgEquiv a b) := by
  unfold msgEquiv; infer_instance

/-- A node is well formed for the active address family when its IP has the
family's byte width and its port fits in 16 bits. -/
def wfNode (ipLen : Nat) (n : Node) : Prop :=
  n.ip.length = ipLen ∧ (∀ c ∈ n.ip, c < 256) ∧ n.port < 2 ^ 16

/-- Well-formedness of an optional node reference. -/
def wfOptNode (ipLen : Nat) : Option Node → Prop
  | none => True
  | some s => wfNode ipLen s

/-- A message member whose fields all fit their wire widths. -/
def wfMember (ipLen : Nat) (mem : messageMember) : Prop :=
  wfNode ipLen mem.node ∧ mem.status < 256 ∧ mem.heartbeat < 2 ^ 32 ∧
    wfOptNode ipLen mem.source

/-- A broadcast whose fields all fit their wire widths. -/
def wfBroadcast (ipLen : Nat) (b : Broadcast) : Prop :=
  wfNode ipLen b.origin ∧ b.index < 2 ^ 32 ∧ b.bytes.length < 2 ^ 16

/-- Well-formedness of an optional broadcast. -/
def wfOptBroadcast (ipLen : Nat) : Option Broadcast → Prop
  | none => True
  | some b => wfBroadcast ipLen b

/-- A well-formed message: every field fits its wire width, at most 63
members, a two-bit verb. -/
def wfMessage (ipLen : Nat) (m : message) : Prop :=
  m.senderHeartbeat < 2 ^ 32 ∧ m.verb < 4 ∧
    (m.members.getD []).length ≤ 63 ∧
    (∀ mem ∈ m.members.getD [], wfMember ipLen mem) ∧
    wfOptBroadcast ipLen m.broadcast ∧
    wfOptNode ipLen m.sender

instance (ipLen : Nat) (n : Node) : Decidable (wfNode ipLen n) := by
  unfold wfNode; infer_instance

instance (ipLen : Nat) (o : Option Node) : Decidable (wfOptNode ipLen o) := by
  cases o <;> unfold wfOptNode <;> infer_instance

instance (ipLen : Nat) (mem : messageMember) : Decidable (wfMember ipLen mem) := by
  unfold wfMember; infer_instance

instance (ipLen : Nat) (b : Broadcast) : Decidable (wfBroadcast ipLen b) := by
  unfold wfBroadcast; infer_instance

instance (ipLen : Nat) (o : Option Broadcast) : Decidable (wfOptBroadcast ipLen o) := by
  cases o <;> unfold wfOptBroadcast <;> infer_instance

instance (ipLen : Nat) (m : message) : Decidable (wfMessage ipLen m) := by
  unfold wfMessage; infer_instance

/-- Reading past a known prefix of an appended list. -/
theorem getD_skip (l1 l2 : List Nat) (n k : Nat) (h : n = l1.length + k) :
    (l1 ++ l2).getD n 0 = l2.getD k 0 := by
  simp only [List.getD_eq_getElem?_getD,
    List.getElem?_append_right (show l1.length ≤ n by omega)]
  rw [show n - l1.length = k by omega]

/-- A 16-bit read that starts exactly after a known prefix. -/
theorem decodeUint16_skip (l1 l2 : List Nat) (p : Nat) (h : p = l1.length) :
    decodeUint16 (l1 ++ l2) p = decodeUint16 l2 0 := by
  unfold decodeUint16
  rw [getD_skip l1 l2 p 0 (by omega), getD_skip l1 l2 (p + 1) 1 (by omega)]

/-- A 32-bit read that starts exactly after a known prefix. -/
theorem decodeUint32_skip (l1 l2 : List Nat) (p : Nat) (h : p = l1.length) :
    decodeUint32 (l1 ++ l2) p = decodeUint32 l2 0 := by
  unfold decodeUint32
  rw [getD_skip l1 l2 p 0 (by omega), getD_skip l1 l2 (p + 1) 1 (by omega),
    getD_skip l1 l2 (p + 2) 2 (by omega), getD_skip l1 l2 (p + 3) 3 (by omega)]

/-- Decoding the bytes `encodeUint16` wrote recovers the value mod `2^16`. -/
theorem decodeUint16_encodeUint16 (v : Nat) (l : List Nat) :
    decodeUint16 (encodeUint16 v ++ l) 0 = v % 2 ^ 16 := by
  show v / 2 ^ 8 % 256 * 2 ^ 8 + v % 256 = v % 2 ^ 16
  omega

/-- Decoding the bytes `encodeUint32` wrote recovers the value mod `2^32`. -/
theorem decodeUint32_encodeUint32 (v : Nat) (l : List Nat) :
    decodeUint32 (encodeUint32 v ++ l) 0 = v % 2 ^ 32 := by
  show v / 2 ^ 24 % 256 * 2 ^ 24 + v / 2 ^ 16 % 256 * 2 ^ 16 +
    v / 2 ^ 8 % 256 * 2 ^ 8 + v % 256 = v % 2 ^ 32
  omega

/-- Both Adler-32 rolling sums stay below the modulus. -/
theorem adler32_foldl_lt (l : List Nat) :
    ∀ p : Nat × Nat, p.1 < 65521 → p.2 < 65521 →
      (l.foldl adler32Step p).1 < 65521 ∧ (l.foldl adler32Step p).2 < 65521 := by
  induction l with
  | nil => exact fun p h1 h2 => ⟨h1, h2⟩
  | cons c t ih =>
      intro p h1 h2
      obtain ⟨a, b⟩ := p
      simpa [adler32Step] using
        ih ((a + c) % 65521, (b + a + c) % 65521)
          (Nat.mod_lt _ (by omega)) (Nat.mod_lt _ (by omega))

/-- The Adler-32 checksum fits in 32 bits. -/
theorem adler32_lt (l : List Nat) : adler32 l < 2 ^ 32 := by
  have h := adler32_foldl_lt l (1, 0) (by omega) (by omega)
  show (l.foldl adler32Step (1, 0)).2 * 2 ^ 16 + (l.foldl adler32Step (1, 0)).1 < 2 ^ 32
  omega

/-- `x &&& 3` is `x % 4`. -/
theorem and_three_eq_mod (v : Nat) : v &&& 3 = v % 4 := by
  have := Nat.and_pow_two_sub_one_eq_mod v 2
  norm_num at this; omega

/-- `x >>> 2` is `x / 4`. -/
theorem shiftRight_two_eq_div (v : Nat) : v >>> 2 = v / 4 := by
  have := Nat.shiftRight_eq_div_pow v 2
  norm_num at this; omega

/-- Packing a six-bit count over a two-bit verb is plain arithmetic. -/
theorem lor_verb_eq_add : ∀ c, c < 64 → ∀ v, v < 4 → c * 4 ||| v = c * 4 + v := by
  decide

/-- The packed verb/count byte written by `encodeBody`, in closed form, for
a well-formed count and verb. -/
theorem verbByte_eq (c v : Nat) (hc : c ≤ 63) (hv : v < 4) :
    c % 256 * 4 % 256 ||| v % 256 = c * 4 + v := by
  rw [Nat.mod_eq_of_lt (show c < 256 by omega),
    Nat.mod_eq_of_lt (show c * 4 < 256 by omega),
    Nat.mod_eq_of_lt (show v < 256 by omega)]
  exact lor_verb_eq_add c (by omega) v hv

/-- Length of one encoded member slot. -/
theorem memberSlot_length (ipLen : Nat) (mem : messageMember)
    (h : wfMember ipLen mem) :
    (memberSlot ipLen mem).length = 9 + ipLen + ipLen := by
  obtain ⟨⟨hip, -, -⟩, -, -, hsrc⟩ := h
  unfold memberSlot
  cases hmem : mem.source with
  | none => simp [encodeUint16, encodeUint32, hip]; omega
  | some s =>
      rw [hmem] at hsrc
      obtain ⟨hsip, -, -⟩ := hsrc
      simp [encodeUint16, encodeUint32, hip, hsip]; omega

/-- Length of the concatenated member slots. -/
theorem flatMap_memberSlot_length (ipLen : Nat) (mems : List messageMember)
    (h : ∀ mem ∈ mems, wfMember ipLen mem) :
    (mems.flatMap (memberSlot ipLen)).length = mems.length * (9 + ipLen + ipLen) := by
  induction mems with
  | nil => simp
  | cons mem t ih =>
      simp only [List.flatMap_cons, List.length_append, List.length_cons,
        memberSlot_length ipLen mem (h mem (by simp)),
        ih (fun x hx => h x (by simp [hx]))]
      ring

/-- Length of an encoded broadcast section. -/
theorem broadcastEncode_length (b : Broadcast) (ipLen : Nat)
    (h : wfBroadcast ipLen b) :
    b.encode.length = 8 + ipLen + b.bytes.length := by
  obtain ⟨⟨hip, -, -⟩, -, -⟩ := h
  simp [Broadcast.encode, encodeUint16, encodeUint32, hip]
  omega

/-- Decoding one well-formed member slot (with a present gossip source)
followed by further bytes peels off exactly that member. -/
theorem decodeMembers_slot (ipLen c : Nat) (st : Nat) (nip : List Nat)
    (nport hb : Nat) (sip : List Nat) (sport : Nat) (rest : List Nat)
    (hnip : nip.length = ipLen) (hnport : nport < 2 ^ 16) (hhb : hb < 2 ^ 32)
    (hsip : sip.length = ipLen) (hsport : sport < 2 ^ 16) :
    decodeMembers ipLen c
      (st :: (nip ++ (encodeUint16 nport ++ (encodeUint32 hb ++
        (sip ++ (encodeUint16 sport ++ rest)))))) =
    (decodeMembers ipLen c rest).map
      (fun ms => { source := some ⟨sip, sport⟩, heartbeat := hb,
                   node := ⟨nip, nport⟩, status := st } :: ms) := by
  set B : List Nat :=
    st :: (nip ++ (encodeUint16 nport ++ (encodeUint32 hb ++
      (sip ++ (encodeUint16 sport ++ rest))))) with hB
  have hlen : B.length = rest.length + (9 + ipLen + ipLen) := by
    simp [hB, encodeUint16, encodeUint32, hnip, hsip]; omega
  have ha : B.getD 0 0 = st := rfl
  have hc : (B.drop 1).take ipLen = nip := by
    have h1 : B.drop 1 = nip ++ (encodeUint16 nport ++ (encodeUint32 hb ++
        (sip ++ (encodeUint16 sport ++ rest)))) := rfl
    rw [h1, List.take_left' hnip]
  have hd : decodeUint16 B (1 + ipLen) = nport := by
    have h1 : B = (st :: nip) ++ (encodeUint16 nport ++ (encodeUint32 hb ++
        (sip ++ (encodeUint16 sport ++ rest)))) := by simp [hB]
    rw [h1, decodeUint16_skip _ _ _ (by simp [hnip]; omega),
      decodeUint16_encodeUint16, Nat.mod_eq_of_lt hnport]
  have he : decodeUint32 B (3 + ipLen) = hb := by
    have h1 : B = (st :: (nip ++ encodeUint16 nport)) ++ (encodeUint32 hb ++
        (sip ++ (encodeUint16 sport ++ rest))) := by simp [hB]
    rw [h1, decodeUint32_skip _ _ _ (by simp [hnip, encodeUint16]; omega),
      decodeUint32_encodeUint32, Nat.mod_eq_of_lt hhb]
  have hf : (B.drop (7 + ipLen)).take ipLen = sip := by
    have h1 : B = (st :: (nip ++ (encodeUint16 nport ++ encodeUint32 hb))) ++
        (sip ++ (encodeUint16 sport ++ rest)) := by simp [hB]
    rw [h1, List.drop_left' (by simp [hnip, encodeUint16, encodeUint32]; omega),
      List.take_left' hsip]
  have hg : decodeUint16 B (7 + ipLen + ipLen) = sport := by
    have h1 : B = (st :: (nip ++ (encodeUint16 nport ++ (encodeUint32 hb ++
        sip)))) ++ (encodeUint16 sport ++ rest) := by simp [hB]
    rw [h1, decodeUint16_skip _ _ _
        (by simp [hnip, hsip, encodeUint16, encodeUint32]; omega),
      decodeUint16_encodeUint16, Nat.mod_eq_of_lt hsport]
  have hr : B.drop (9 + ipLen + ipLen) = rest := by
    have h1 : B = (st :: (nip ++ (encodeUint16 nport ++ (encodeUint32 hb ++
        (sip ++ encodeUint16 sport))))) ++ rest := by simp [hB]
    rw [h1, List.drop_left'
        (by simp [hnip, hsip, encodeUint16, encodeUint32]; omega)]
  rw [decodeMembers.eq_def]
  rw [dif_neg (by omega), dif_neg (by omega)]
  simp only [ha, hc, hd, he, hf, hg, hr, lookupOrCreate]
  cases decodeMembers ipLen c rest <;> rfl

/-- Decoding the concatenated slots of well-formed members whose gossip
sources are all present recovers exactly those members. -/
theorem decodeMembers_flatMap (ipLen c : Nat) (mems : List messageMember)
    (h : ∀ mem ∈ mems, wfMember ipLen mem ∧ mem.source ≠ none) :
    decodeMembers ipLen c (mems.flatMap (memberSlot ipLen)) = some mems := by
  induction mems with
  | nil => rw [decodeMembers.eq_def]; simp
  | cons mem t ih =>
      obtain ⟨⟨⟨hnip, -, hnport⟩, hst, hhb, hsrcwf⟩, hsrcsome⟩ := h mem (by simp)
      obtain ⟨s, hs⟩ : ∃ s, mem.source = some s := by
        cases hms : mem.source with
        | none => exact absurd hms hsrcsome
        | some s => exact ⟨s, rfl⟩
      rw [hs] at hsrcwf
      obtain ⟨hsip, -, hsport⟩ := (hsrcwf : wfNode ipLen s)
      have harr : (mem :: t).flatMap (memberSlot ipLen) =
          mem.status :: (mem.node.ip ++ (encodeUint16 mem.node.port ++
            (encodeUint32 mem.heartbeat ++ (s.ip ++ (encodeUint16 s.port ++
              t.flatMap (memberSlot ipLen)))))) := by
        simp [memberSlot, hs, Nat.mod_eq_of_lt hst]
      rw [harr,
        decodeMembers_slot ipLen c mem.status mem.node.ip mem.node.port
          mem.heartbeat s.ip s.port (t.flatMap (memberSlot ipLen))
          hnip hnport hhb hsip hsport,
        ih (fun x hx => h x (by simp [hx]))]
      have hX : (⟨some ⟨s.ip, s.port⟩, mem.heartbeat,
          ⟨mem.node.ip, mem.node.port⟩, mem.status⟩ : messageMember) = mem := by
        rw [show (⟨s.ip, s.port⟩ : Node) = s from rfl, ← hs]
      rw [Option.map_some']
      rw [hX]

/-- Decoding the bytes an encoded well-formed broadcast produced recovers
that broadcast. -/
theorem decodeBroadcast_encode (ipLen : Nat) (b : Broadcast)
    (h : wfBroadcast ipLen b) :
    decodeBroadcast ipLen b.encode = .ok b := by
  obtain ⟨⟨hip, -, hport⟩, hidx, hlenb⟩ := h
  have hlen : b.encode.length = b.bytes.length + (8 + ipLen) := by
    simp [Broadcast.encode, encodeUint16, encodeUint32, hip]; omega
  have h1 : b.encode.take ipLen = b.origin.ip := by
    have e : b.encode = b.origin.ip ++ (encodeUint16 b.origin.port ++
        (encodeUint32 b.index ++ (encodeUint16 b.bytes.length ++ b.bytes))) := by
      simp [Broadcast.encode]
    rw [e, List.take_left' hip]
  have h2 : decodeUint16 b.encode ipLen = b.origin.port := by
    have e : b.encode = b.origin.ip ++ (encodeUint16 b.origin.port ++
        (encodeUint32 b.index ++ (encodeUint16 b.bytes.length ++ b.bytes))) := by
      simp [Broadcast.encode]
    rw [e, decodeUint16_skip _ _ _ hip.symm, decodeUint16_encodeUint16,
      Nat.mod_eq_of_lt hport]
  have h3 : decodeUint32 b.encode (ipLen + 2) = b.index := by
    have e : b.encode = (b.origin.ip ++ encodeUint16 b.origin.port) ++
        (encodeUint32 b.index ++ (encodeUint16 b.bytes.length ++ b.bytes)) := by
      simp [Broadcast.encode]
    rw [e, decodeUint32_skip _ _ _ (by simp [hip, encodeUint16]),
      decodeUint32_encodeUint32, Nat.mod_eq_of_lt hidx]
  have h4 : decodeUint16 b.encode (ipLen + 6) = b.bytes.length := by
    have e : b.encode = (b.origin.ip ++ (encodeUint16 b.origin.port ++
        encodeUint32 b.index)) ++ (encodeUint16 b.bytes.length ++ b.bytes) := by
      simp [Broadcast.encode]
    rw [e, decodeUint16_skip _ _ _
        (by simp [hip, encodeUint16, encodeUint32]),
      decodeUint16_encodeUint16, Nat.mod_eq_of_lt hlenb]
  have h5 : b.encode.drop (ipLen + 8) = b.bytes := by
    have e : b.encode = (b.origin.ip ++ (encodeUint16 b.origin.port ++
        (encodeUint32 b.index ++ encodeUint16 b.bytes.length))) ++ b.bytes := by
      simp [Broadcast.encode]
    rw [e, List.drop_left' (by simp [hip, encodeUint16, encodeUint32])]
  unfold decodeBroadcast
  rw [if_neg (by omega)]
  simp only [h1, h2, h3, h4, h5]
  rw [if_neg (by omega), List.take_length]
  rfl

/-- The reads `decodeMessage` performs on the header region of an encoded
datagram, in closed form. -/
theorem header_reads (B : List Nat) (cs vb port hb : Nat) (tail : List Nat)
    (hB : B = encodeUint32 cs ++
      (vb :: (encodeUint16 port ++ (encodeUint32 hb ++ tail))))
    (hcs : cs < 2 ^ 32) (hport : port < 2 ^ 16) (hhb : hb < 2 ^ 32) :
    decodeUint32 B 0 = cs ∧
    B.drop 4 = vb :: (encodeUint16 port ++ (encodeUint32 hb ++ tail)) ∧
    B.getD 4 0 = vb ∧ decodeUint16 B 5 = port ∧ decodeUint32 B 7 = hb ∧
    B.drop 11 = tail ∧ B.length = tail.length + 11 := by
  subst hB
  refine ⟨?_, ?_, ?_, ?_, ?_, ?_, ?_⟩
  · rw [decodeUint32_encodeUint32, Nat.mod_eq_of_lt hcs]
  · exact List.drop_left' (by simp [encodeUint32])
  · rfl
  · have e : encodeUint32 cs ++
        (vb :: (encodeUint16 port ++ (encodeUint32 hb ++ tail))) =
        (encodeUint32 cs ++ [vb]) ++
          (encodeUint16 port ++ (encodeUint32 hb ++ tail)) := by simp
    rw [e, decodeUint16_skip _ _ _ (by simp [encodeUint32]),
      decodeUint16_encodeUint16, Nat.mod_eq_of_lt hport]
  · have e : encodeUint32 cs ++
        (vb :: (encodeUint16 port ++ (encodeUint32 hb ++ tail))) =
        (encodeUint32 cs ++ (vb :: encodeUint16 port)) ++
          (encodeUint32 hb ++ tail) := by simp
    rw [e, decodeUint32_skip _ _ _ (by simp [encodeUint32, encodeUint16]),
      decodeUint32_encodeUint32, Nat.mod_eq_of_lt hhb]
  · have e : encodeUint32 cs ++
        (vb :: (encodeUint16 port ++ (encodeUint32 hb ++ tail))) =
        (encodeUint32 cs ++ (vb :: (encodeUint16 port ++ encodeUint32 hb))) ++
          tail := by simp
    rw [e, List.drop_left' (by simp [encodeUint32, encodeUint16])]
  · simp [encodeUint32, encodeUint16]

/-- Decoding an encoded well-formed message (sender present, every member
gossip source present) from the sender's own IP recovers the message field
for field. -/
theorem decode_encode_roundtrip (ipLen : Nat) (m : message) (s : Node)
    (bs : List Nat) (hsend : m.sender = some s) (hwf : wfMessage ipLen m)
    (hsrc : ∀ mem ∈ m.members.getD [], mem.source ≠ none)
    (henc : encode ipLen m = some bs) :
    ∃ mm, decodeMessage ipLen s.ip bs = .result mm none ∧ msgEquiv m mm := by
  obtain ⟨hhb, hverb, hcount, hmemwf, hbwf, hsndwf⟩ := hwf
  rw [hsend] at hsndwf
  obtain ⟨-, -, hsport⟩ := (hsndwf : wfNode ipLen s)
  have hflatlen : ((m.members.getD []).flatMap (memberSlot ipLen)).length =
      (m.members.getD []).length * (9 + ipLen + ipLen) :=
    flatMap_memberSlot_length ipLen _ hmemwf
  have hbs : bs = encodeUint32 (adler32 (encodeBody ipLen m s)) ++
      encodeBody ipLen m s := by
    unfold encode at henc
    rw [hsend] at henc
    exact (Option.some.inj henc).symm
  have hcs : adler32 (encodeBody ipLen m s) < 2 ^ 32 := adler32_lt _
  have hvb : (m.members.getD []).length % 256 * 4 % 256 ||| m.verb % 256 =
      (m.members.getD []).length * 4 + m.verb := verbByte_eq _ _ hcount hverb
  have hvband : ((m.members.getD []).length * 4 + m.verb) &&& 3 = m.verb := by
    rw [and_three_eq_mod]; omega
  have hvbshift : ((m.members.getD []).length * 4 + m.verb) >>> 2 =
      (m.members.getD []).length := by
    rw [shiftRight_two_eq_div]; omega
  have hdm : decodeMembers ipLen (m.members.getD []).length
      ((m.members.getD []).flatMap (memberSlot ipLen)) =
      some (m.members.getD []) :=
    decodeMembers_flatMap _ _ _ (fun mem hm => ⟨hmemwf mem hm, hsrc mem hm⟩)
  cases hbcast : m.broadcast with
  | none =>
      have hbody : encodeBody ipLen m s =
          ((m.members.getD []).length * 4 + m.verb) ::
            (encodeUint16 s.port ++ (encodeUint32 m.senderHeartbeat ++
              (m.members.getD []).flatMap (memberSlot ipLen))) := by
        simp only [encodeBody, hbcast, hvb, List.append_nil,
          List.append_assoc]
      obtain ⟨hr0, hr4d, hr4, hr5, hr7, hr11, hrlen⟩ :=
        header_reads bs (adler32 (encodeBody ipLen m s))
          ((m.members.getD []).length * 4 + m.verb) s.port m.senderHeartbeat
          ((m.members.getD []).flatMap (memberSlot ipLen))
          (by rw [hbs, hbody]) hcs hsport hhb
      by_cases hLz : (m.members.getD []).length = 0
      · have hflatnil : (m.members.getD []).flatMap (memberSlot ipLen) = [] :=
          List.eq_nil_of_length_eq_zero (by rw [hflatlen, hLz, Nat.zero_mul])
        have hblen : bs.length = 11 := by
          rw [hrlen, hflatnil]; rfl
        have hR : decodeMessage ipLen s.ip bs = .result
            { sender := some s, senderHeartbeat := m.senderHeartbeat,
              verb := m.verb, members := none, broadcast := none } none := by
          unfold decodeMessage
          rw [if_neg (by omega)]
          simp only [hr4d, ← hbody, hr0]
          rw [if_neg (by simp)]
          rw [if_neg (by omega)]
          simp only [hr4, hvband, hvbshift, hr5, hr7]
          simp only [hLz, Nat.zero_mul, Nat.add_zero]
          rw [if_neg (by omega), if_neg (by omega)]
          rfl
        refine ⟨_, hR, rfl, rfl, hsend, ?_, ?_⟩
        · simpa using List.eq_nil_of_length_eq_zero hLz
        · simpa using hbcast
      · have hblen : bs.length =
            (m.members.getD []).length * (9 + ipLen + ipLen) + 11 := by
          rw [hrlen, hflatlen]
        have hwpos : 9 + ipLen + ipLen ≤
            (m.members.getD []).length * (9 + ipLen + ipLen) :=
          Nat.le_mul_of_pos_left _ (by omega)
        have hR : decodeMessage ipLen s.ip bs = .result
            { sender := some s, senderHeartbeat := m.senderHeartbeat,
              verb := m.verb, members := some (m.members.getD []),
              broadcast := none } none := by
          unfold decodeMessage
          rw [if_neg (by omega)]
          simp only [hr4d, ← hbody, hr0]
          rw [if_neg (by simp)]
          rw [if_neg (by omega)]
          simp only [hr4, hvband, hvbshift, hr5, hr7]
          rw [if_pos (by omega), if_neg (by omega), hr11, ← hflatlen,
            List.take_length, hdm]
          simp only []
          rw [if_neg (by omega)]
          rfl
        exact ⟨_, hR, rfl, rfl, hsend, rfl, by simpa using hbcast⟩
  | some b =>
      rw [hbcast] at hbwf
      have hbenc : b.encode.length = 8 + ipLen + b.bytes.length :=
        broadcastEncode_length b ipLen hbwf
      have hbody : encodeBody ipLen m s =
          ((m.members.getD []).length * 4 + m.verb) ::
            (encodeUint16 s.port ++ (encodeUint32 m.senderHeartbeat ++
              ((m.members.getD []).flatMap (memberSlot ipLen) ++ b.encode))) := by
        simp only [encodeBody, hbcast, hvb, List.append_assoc]
      obtain ⟨hr0, hr4d, hr4, hr5, hr7, hr11, hrlen⟩ :=
        header_reads bs (adler32 (encodeBody ipLen m s))
          ((m.members.getD []).length * 4 + m.verb) s.port m.senderHeartbeat
          ((m.members.getD []).flatMap (memberSlot ipLen) ++ b.encode)
          (by rw [hbs, hbody]) hcs hsport hhb
      have htl : ((m.members.getD []).flatMap (memberSlot ipLen) ++
          b.encode).length =
          (m.members.getD []).length * (9 + ipLen + ipLen) +
            b.encode.length := by
        rw [List.length_append, hflatlen]
      have hdropMLI : bs.drop
          (11 + (m.members.getD []).length * (9 + ipLen + ipLen)) =
          b.encode := by
        rw [← List.drop_drop, hr11, ← hflatlen, List.drop_left]
      have hR : decodeMessage ipLen s.ip bs = .result
          { sender := some s, senderHeartbeat := m.senderHeartbeat,
            verb := m.verb, members := some (m.members.getD []),
            broadcast := some b } none := by
        unfold decodeMessage
        rw [if_neg (by omega)]
        simp only [hr4d, ← hbody, hr0]
        rw [if_neg (by simp)]
        rw [if_neg (by omega)]
        simp only [hr4, hvband, hvbshift, hr5, hr7]
        rw [if_pos (by omega), if_neg (by omega), hr11]
        rw [show ((m.members.getD []).flatMap (memberSlot ipLen) ++
            b.encode).take ((m.members.getD []).length * (9 + ipLen + ipLen)) =
            (m.members.getD []).flatMap (memberSlot ipLen) from by
          rw [← hflatlen, List.take_left]]
        rw [hdm]
        simp only []
        rw [if_pos (by omega), hdropMLI, decodeBroadcast_encode ipLen b hbwf]
        rfl
      exact ⟨_, hR, rfl, rfl, hsend, rfl, by simpa using hbcast⟩

/-- `decodeMembers` on a whole number of member slots succeeds and yields
exactly one member per slot, for any value of the (unread) count
argument. -/
theorem decodeMembers_length (ipLen c : Nat) :
    ∀ (k : Nat) (bytes : List Nat),
      bytes.length = k * (9 + ipLen + ipLen) →
      ∃ ms, decodeMembers ipLen c bytes = some ms ∧ ms.length = k := by
  intro k
  induction k with
  | zero =>
      intro bytes h
      have hnil : bytes = [] := List.eq_nil_of_length_eq_zero (by omega)
      subst hnil
      refine ⟨[], ?_, rfl⟩
      rw [decodeMembers.eq_def]
      simp
  | succ k ih =>
      intro bytes h
      rw [Nat.succ_mul] at h
      obtain ⟨ms, hms, hlen⟩ := ih (bytes.drop (9 + ipLen + ipLen))
        (by simp only [List.length_drop]; omega)
      rw [decodeMembers.eq_def, dif_neg (by omega), dif_neg (by omega)]
      simp only [hms]
      exact ⟨_, rfl, by simp [hlen]⟩

/-- `decodeMembers` never reads its count argument: any two counts give the
same result on the same bytes. -/
theorem decodeMembers_count_irrelevant (ipLen c1 c2 : Nat)
    (bytes : List Nat) :
    decodeMembers ipLen c1 bytes = decodeMembers ipLen c2 bytes := by
  generalize hn : bytes.length = n
  induction n using Nat.strong_induction_on generalizing bytes with
  | _ n ih =>
      conv_lhs => rw [decodeMembers.eq_def]
      conv_rhs => rw [decodeMembers.eq_def]
      by_cases h0 : bytes.length = 0
      · rw [dif_pos h0, dif_pos h0]
      · by_cases hs : bytes.length < 9 + ipLen + ipLen
        · rw [dif_neg (by omega), dif_pos hs, dif_neg (by omega), dif_pos hs]
        · rw [dif_neg (by omega), dif_neg hs, dif_neg (by omega), dif_neg hs]
          have hrec := ih (bytes.drop (9 + ipLen + ipLen)).length
            (by simp only [List.length_drop]; omega)
            (bytes.drop (9 + ipLen + ipLen)) rfl
          simp only [hrec]

/-- A member whose gossip source is absent, used in concrete scenarios. -/
def c3member : messageMember :=
  { source := none, heartbeat := 0, node := ⟨[10, 0, 0, 2], 1⟩,
    status := statusForwardTo }

/-- A PING message whose first member carries the forward-to status. -/
def c3msg : message :=
  { sender := some ⟨[10, 0, 0, 1], 1⟩, senderHeartbeat := 0, verb := verbPing,
    members := some [c3member], broadcast := none }

/-- C3: the claim that `getForwardTo` returns none for every non-PINGREQ
verb is false: a PING message whose first member carries `FORWARD_TO` still
yields a non-none forward target, because the source never consults the
verb. -/
theorem claim_C3_counterexample :
    ¬ (∀ m : message, m.verb ≠ verbPingRequest → getForwardTo m = none) :=
  fun h => absurd (h c3msg (by decide)) (by decide)

/-- C3 (amended): `getForwardTo` ignores the verb entirely: changing the
verb never changes its result, and it is non-none exactly when the message
has at least one member whose first entry carries the `FORWARD_TO`
status (for PINGREQ messages in particular, but equally for every other
verb). -/
theorem claim_C3_getForwardTo (m : message) (v : Nat) :
    getForwardTo { m with verb := v } = getForwardTo m ∧
    (getForwardTo m ≠ none ↔
      ∃ first rest, m.members.getD [] = first :: rest ∧
        first.status = statusForwardTo) := by
  constructor
  · rfl
  · cases hms : m.members with
    | none => simp [getForwardTo, hms]
    | some ms =>
        cases ms with
        | nil => simp [getForwardTo, hms]
        | cons first rest =>
            by_cases hst : first.status = statusForwardTo <;>
              simp [getForwardTo, hms, hst]

/-- C3 witness at a concrete message. -/
theorem claim_C3_witness :
    getForwardTo { c3msg with verb := verbAck } = getForwardTo c3msg ∧
    (getForwardTo c3msg ≠ none ↔
      ∃ first rest, c3msg.members.getD [] = first :: rest ∧
        first.status = statusForwardTo) :=
  claim_C3_getForwardTo c3msg verbAck

/-- A member used to populate concrete messages for the member-cap claim. -/
def c4member : messageMember :=
  { source := none, heartbeat := 0, node := ⟨[10, 0, 0, 5], 1⟩,
    status := statusAlive }

/-- A message already holding 63 members. -/
def c4full : message :=
  { sender := some ⟨[10, 0, 0, 1], 1⟩, senderHeartbeat := 0, verb := verbPing,
    members := some (List.replicate 63 c4member), broadcast := none }

/-- A message holding a single member. -/
def c4small : message :=
  { sender := some ⟨[10, 0, 0, 1], 1⟩, senderHeartbeat := 0, verb := verbPing,
    members := some [c4member], broadcast := none }

/-- C4: `addMember` on a message already holding 63 members fails with the
member-list-overflow error and returns the message unchanged (same 63
members); on a message holding fewer than 63 members it succeeds and
appends exactly the one new member. -/
theorem claim_C4_addMember (m : message) (node : Node)
    (status heartbeat : Nat) (src : Option Node) :
    (∀ ms, m.members = some ms → ms.length = 63 →
      addMember m node status heartbeat src =
        (m, some "member list overflow")) ∧
    ((m.members.getD []).length < 63 →
      ∃ m', addMember m node status heartbeat src = (m', none) ∧
        m'.members = some (m.members.getD [] ++
          [{ source := src, heartbeat := heartbeat, node := node,
             status := status }]) ∧
        m'.sender = m.sender ∧ m'.senderHeartbeat = m.senderHeartbeat ∧
        m'.verb = m.verb ∧ m'.broadcast = m.broadcast) := by
  constructor
  · intro ms hms hlen
    unfold addMember
    rw [hms]
    simp [hlen]
  · intro hlt
    obtain ⟨sender, shb, verb, members, bcast⟩ := m
    cases members with
    | none =>
        exact ⟨⟨sender, shb, verb, some [⟨src, heartbeat, node, status⟩],
          bcast⟩, rfl, rfl, rfl, rfl, rfl, rfl⟩
    | some ms =>
        have hlt' : ms.length < 63 := by simpa using hlt
        exact ⟨⟨sender, shb, verb,
          some (ms ++ [⟨src, heartbeat, node, status⟩]), bcast⟩,
          by unfold addMember; simp only []; rw [if_neg (by omega)],
          rfl, rfl, rfl, rfl, rfl⟩

/-- C4 witness: the cap at a concrete 63-member message, and success at a
concrete 1-member message. -/
theorem claim_C4_witness :
    addMember c4full ⟨[1, 2, 3, 4], 9⟩ statusAlive 5 none =
      (c4full, some "member list overflow") ∧
    (∃ m', addMember c4small ⟨[1, 2, 3, 4], 9⟩ statusAlive 5 none =
        (m', none) ∧
      m'.members = some (c4small.members.getD [] ++
        [{ source := none, heartbeat := 5, node := ⟨[1, 2, 3, 4], 9⟩,
           status := statusAlive }]) ∧
      m'.sender = c4small.sender ∧
      m'.senderHeartbeat = c4small.senderHeartbeat ∧
      m'.verb = c4small.verb ∧ m'.broadcast = c4small.broadcast) :=
  ⟨(claim_C4_addMember c4full ⟨[1, 2, 3, 4], 9⟩ statusAlive 5 none).1 _ rfl
      (by simp),
   (claim_C4_addMember c4small ⟨[1, 2, 3, 4], 9⟩ statusAlive 5 none).2
      (by decide)⟩

/-- C9: `decodeMembers` ignores its declared member-count argument: on a
byte slice that is a whole number of fixed-width slots it returns exactly
`length / slotWidth` members for every value of the count argument, and
any two count values give the identical member list. -/
theorem claim_C9_countIgnored (ipLen c1 c2 k : Nat) (bytes : List Nat)
    (h : bytes.length = k * (9 + ipLen + ipLen)) :
    ∃ ms, decodeMembers ipLen c1 bytes = some ms ∧ ms.length = k ∧
      ms.length = bytes.length / (9 + ipLen + ipLen) ∧
      decodeMembers ipLen c2 bytes = some ms := by
  obtain ⟨ms, hms, hlen⟩ := decodeMembers_length ipLen c1 k bytes h
  refine ⟨ms, hms, hlen, ?_, ?_⟩
  · rw [h, Nat.mul_div_cancel _ (by omega), hlen]
  · rw [decodeMembers_count_irrelevant ipLen c2 c1 bytes, hms]

/-- C9 witness: one 17-byte IPv4 slot decodes to one member under two
different count arguments. -/
theorem claim_C9_witness :
    ∃ ms, decodeMembers 4 99 (List.replicate 17 0) = some ms ∧
      ms.length = 1 ∧
      ms.length = (List.replicate 17 0 : List Nat).length / (9 + 4 + 4) ∧
      decodeMembers 4 0 (List.replicate 17 0) = some ms :=
  claim_C9_countIgnored 4 99 0 1 (List.replicate 17 0) (by decide)

/-- C10: on a failed checksum, `decodeMessage` returns the checksum error
naming the source IP together with `newMessage(255, nil, 0)`: verb 255
(outside the four defined verbs), nil sender, zero heartbeat, no members,
no broadcast. -/
theorem claim_C10_checksumFailShape (ipLen : Nat) (sourceIP bytes : List Nat)
    (hlen : 4 ≤ bytes.length)
    (hm : adler32 (bytes.drop 4) ≠ decodeUint32 bytes 0) :
    decodeMessage ipLen sourceIP bytes =
      .result { sender := none, senderHeartbeat := 0, verb := 255,
                members := none, broadcast := none }
        (some (.checksumFailure sourceIP)) ∧
    (255 : Nat) ∉
      [verbPing, verbAck, verbPingRequest, verbNonForwardingPing] := by
  refine ⟨?_, by decide⟩
  unfold decodeMessage
  rw [if_neg (by omega)]
  simp only []
  rw [if_pos hm]
  rfl

/-- C10 witness: a four-byte datagram of zeroes fails its checksum and
yields the unusable sentinel message. -/
theorem claim_C10_witness :
    decodeMessage 4 [9, 9, 9, 9] [0, 0, 0, 0] =
      .result { sender := none, senderHeartbeat := 0, verb := 255,
                members := none, broadcast := none }
        (some (.checksumFailure [9, 9, 9, 9])) ∧
    (255 : Nat) ∉
      [verbPing, verbAck, verbPingRequest, verbNonForwardingPing] :=
  claim_C10_checksumFailShape 4 [9, 9, 9, 9] [0, 0, 0, 0] (by decide)
    (by decide)

/-- The body of a datagram whose packed byte declares two members while only
one member's worth of bytes follows. -/
def c2body : List Nat :=
  8 :: (encodeUint16 0 ++ (encodeUint32 0 ++ List.replicate 17 0))

/-- The datagram for the short-member-block scenario: correct checksum,
packed byte `(2 << 2) | PING = 8`, but a 28-byte datagram where the
declared member block would end at byte 45. -/
def c2bytes : List Nat := encodeUint32 (adler32 c2body) ++ c2body

/-- C2: the claim says such a datagram produces a returned decode error,
but the source computes `memberLastIndex = 45` and evaluates
`bytes[11:45]` on the 28-byte slice, a slice-bounds run-time fault
(panic), modelled as `DecodeResult.panic`.  The conjuncts record that the
input really is a correct-checksum datagram declaring 2 members with only
17 member bytes present. -/
theorem claim_C2_shortMemberBlockPanics :
    decodeUint32 c2bytes 0 = adler32 (c2bytes.drop 4) ∧
    c2bytes.getD 4 0 >>> 2 = 2 ∧ c2bytes.length = 28 ∧
    decodeMessage 4 [10, 0, 0, 9] c2bytes = .panic := by
  refine ⟨by decide, by decide, by decide, ?_⟩
  decide

/-- The only error the broadcast decoder produces is the
malformed-broadcast-section error. -/
theorem decodeBroadcast_error (ipLen : Nat) (l : List Nat) (e : DecodeError)
    (h : decodeBroadcast ipLen l = .error e) : e = .malformedBroadcast := by
  unfold decodeBroadcast at h
  simp only [] at h
  split_ifs at h
  all_goals first
    | exact (Except.error.inj h).symm
    | exact absurd h (by simp)

/-- When the checksum matches, `decodeMessage` never returns the
checksum-integrity error. -/
theorem decodeMessage_matched_no_csfail (ipLen : Nat)
    (sourceIP bytes : List Nat)
    (heq : adler32 (bytes.drop 4) = decodeUint32 bytes 0) :
    ∀ mm, decodeMessage ipLen sourceIP bytes ≠
      .result mm (some (.checksumFailure sourceIP)) := by
  intro mm hcon
  unfold decodeMessage at hcon
  by_cases h4 : bytes.length < 4
  · rw [if_pos h4] at hcon; exact DecodeResult.noConfusion hcon
  · rw [if_neg h4] at hcon
    simp only [] at hcon
    rw [if_neg (by simp [heq])] at hcon
    by_cases h11 : bytes.length < 11
    · rw [if_pos h11] at hcon; exact DecodeResult.noConfusion hcon
    · rw [if_neg h11] at hcon
      by_cases hgt : 11 < bytes.length
      · rw [if_pos hgt] at hcon
        by_cases hsl : bytes.length <
            11 + (bytes.getD 4 0 >>> 2) * (9 + ipLen + ipLen)
        · rw [if_pos hsl] at hcon; exact DecodeResult.noConfusion hcon
        · rw [if_neg hsl] at hcon
          cases hdm : decodeMembers ipLen (bytes.getD 4 0 >>> 2)
              ((bytes.drop 11).take
                ((bytes.getD 4 0 >>> 2) * (9 + ipLen + ipLen))) with
          | none =>
              simp only [hdm] at hcon
              exact DecodeResult.noConfusion hcon
          | some ms =>
              simp only [hdm] at hcon
              by_cases hbl : 11 + (bytes.getD 4 0 >>> 2) *
                  (9 + ipLen + ipLen) < bytes.length
              · rw [if_pos hbl] at hcon
                cases hdb : decodeBroadcast ipLen (bytes.drop
                    (11 + (bytes.getD 4 0 >>> 2) * (9 + ipLen + ipLen))) with
                | ok b => simp only [hdb] at hcon; simp at hcon
                | error e =>
                    simp only [hdb] at hcon
                    rw [decodeBroadcast_error ipLen _ e hdb] at hcon
                    simp at hcon
              · rw [if_neg hbl] at hcon
                simp at hcon
      · rw [if_neg hgt] at hcon
        by_cases hbl : 11 + (bytes.getD 4 0 >>> 2) *
            (9 + ipLen + ipLen) < bytes.length
        · rw [if_pos hbl] at hcon
          cases hdb : decodeBroadcast ipLen (bytes.drop
              (11 + (bytes.getD 4 0 >>> 2) * (9 + ipLen + ipLen))) with
          | ok b => simp only [hdb] at hcon; simp at hcon
          | error e =>
              simp only [hdb] at hcon
              rw [decodeBroadcast_error ipLen _ e hdb] at hcon
              simp at hcon
        · rw [if_neg hbl] at hcon
          simp at hcon

/-- The checksum-failure return of `decodeMessage`, in closed form. -/
theorem decodeMessage_csfail_eval (ipLen : Nat) (sourceIP bytes : List Nat)
    (h4 : 4 ≤ bytes.length)
    (hm : adler32 (bytes.drop 4) ≠ decodeUint32 bytes 0) :
    decodeMessage ipLen sourceIP bytes =
      .result (newMessage 255 none 0) (some (.checksumFailure sourceIP)) := by
  unfold decodeMessage
  rw [if_neg (by omega)]
  simp only []
  rw [if_pos hm]

/-- C5: `decodeMessage` fails with the checksum error naming the source IP
exactly when the stated 32-bit checksum in bytes 0..3 differs from the
Adler-32 checksum of bytes 4.., and `encode` always writes the Adler-32
checksum of bytes 4.. into bytes 0..3, so the checksum field never enters
its own computation. -/
theorem claim_C5_checksum (ipLen : Nat) :
    (∀ sourceIP bytes : List Nat, 4 ≤ bytes.length →
      ((∃ mm, decodeMessage ipLen sourceIP bytes =
          .result mm (some (.checksumFailure sourceIP))) ↔
        decodeUint32 bytes 0 ≠ adler32 (bytes.drop 4))) ∧
    (∀ (m : message) (bs : List Nat), encode ipLen m = some bs →
      bs.take 4 = encodeUint32 (adler32 (bs.drop 4))) := by
  constructor
  · intro sourceIP bytes h4
    constructor
    · rintro ⟨mm, hmm⟩
      by_contra hne
      exact decodeMessage_matched_no_csfail ipLen sourceIP bytes hne.symm mm hmm
    · intro hne
      exact ⟨_, decodeMessage_csfail_eval ipLen sourceIP bytes h4
        (fun h => hne h.symm)⟩
  · intro m bs henc
    cases hs : m.sender with
    | none =>
        unfold encode at henc
        rw [hs] at henc
        exact Option.noConfusion henc
    | some s =>
        unfold encode at henc
        rw [hs] at henc
        rw [(Option.some.inj henc).symm]
        rw [show (encodeUint32 (adler32 (encodeBody ipLen m s)) ++
            encodeBody ipLen m s).drop 4 = encodeBody ipLen m s from
          List.drop_left' (by simp [encodeUint32])]
        exact List.take_left' (by simp [encodeUint32])

/-- C5 witness: the checksum-failure equivalence at a concrete bad
datagram, and the checksum prefix of a concrete encoded message. -/
theorem claim_C5_witness :
    (∃ mm, decodeMessage 4 [9, 9, 9, 9] [0, 0, 0, 0] =
      .result mm (some (.checksumFailure [9, 9, 9, 9]))) ∧
    ((encode 4 c3msg).getD []).take 4 =
      encodeUint32 (adler32 (((encode 4 c3msg).getD []).drop 4)) :=
  ⟨((claim_C5_checksum 4).1 [9, 9, 9, 9] [0, 0, 0, 0] (by decide)).mpr
      (by decide),
   (claim_C5_checksum 4).2 c3msg ((encode 4 c3msg).getD []) rfl⟩

/-- Decoding a matched-checksum datagram whose length is exactly the header
plus the declared member block returns, with no error, a message whose verb
is the packed byte's low two bits and whose member count is the packed
byte's high six bits. -/
theorem decodeMessage_exactLength (ipLen : Nat) (sourceIP bytes : List Nat)
    (hck : adler32 (bytes.drop 4) = decodeUint32 bytes 0)
    (hlen : bytes.length =
      11 + (bytes.getD 4 0 >>> 2) * (9 + ipLen + ipLen)) :
    ∃ mm, decodeMessage ipLen sourceIP bytes = .result mm none ∧
      mm.verb = bytes.getD 4 0 &&& 3 ∧
      (mm.members.getD []).length = bytes.getD 4 0 >>> 2 ∧
      mm.sender = some (lookupOrCreate sourceIP (decodeUint16 bytes 5)) ∧
      mm.senderHeartbeat = decodeUint32 bytes 7 ∧ mm.broadcast = none := by
  by_cases hc0 : bytes.getD 4 0 >>> 2 = 0
  · have hb11 : bytes.length = 11 := by rw [hlen, hc0]; simp
    refine ⟨⟨some (lookupOrCreate sourceIP (decodeUint16 bytes 5)),
      decodeUint32 bytes 7, bytes.getD 4 0 &&& 3, none, none⟩,
      ?_, rfl, ?_, rfl, rfl, rfl⟩
    · unfold decodeMessage
      rw [if_neg (by omega)]
      simp only []
      rw [if_neg (by simp [hck]), if_neg (by omega), if_neg (by omega),
        if_neg (by omega)]
      rfl
    · exact hc0.symm
  · have hcpos : 0 < bytes.getD 4 0 >>> 2 := Nat.pos_of_ne_zero hc0
    have hwle : 9 + ipLen + ipLen ≤
        (bytes.getD 4 0 >>> 2) * (9 + ipLen + ipLen) :=
      Nat.le_mul_of_pos_left _ hcpos
    have htake : ((bytes.drop 11).take
        ((bytes.getD 4 0 >>> 2) * (9 + ipLen + ipLen))).length =
        (bytes.getD 4 0 >>> 2) * (9 + ipLen + ipLen) := by
      simp only [List.length_take, List.length_drop]
      omega
    obtain ⟨ms, hdm, hmslen⟩ := decodeMembers_length ipLen
      (bytes.getD 4 0 >>> 2) (bytes.getD 4 0 >>> 2) _ htake
    refine ⟨⟨some (lookupOrCreate sourceIP (decodeUint16 bytes 5)),
      decodeUint32 bytes 7, bytes.getD 4 0 &&& 3, some ms, none⟩,
      ?_, rfl, ?_, rfl, rfl, rfl⟩
    · unfold decodeMessage
      rw [if_neg (by omega)]
      simp only []
      rw [if_neg (by simp [hck]), if_neg (by omega), if_pos (by omega),
        if_neg (by omega), hdm]
      simp only []
      rw [if_neg (by omega)]
      rfl
    · simpa using hmslen

/-- A valid 96-byte datagram whose packed byte is 0x15 (five members,
verb ACK), with zeroed sender fields and five zeroed member slots. -/
def c6body : List Nat :=
  0x15 :: (encodeUint16 1 ++ (encodeUint32 2 ++ List.replicate 85 0))

/-- The checksummed datagram over `c6body`. -/
def c6bytes : List Nat := encodeUint32 (adler32 c6body) ++ c6body

/-- C6: `encode` writes `(memberCount << 2) | verb` at byte offset 4 (the
member count in the high six bits, the verb in the low two);
`decodeMessage` inverts this, taking the verb from the low two bits and the
member count from the high six; and concretely `(5 << 2) | ACK = 0x15`,
`0x15 & 3 = ACK`, `0x15 >> 2 = 5`. -/
theorem claim_C6_packedByte (ipLen : Nat) :
    (∀ (m : message) (s : Node) (bs : List Nat), m.sender = some s →
      (m.members.getD []).length ≤ 63 → m.verb < 256 →
      encode ipLen m = some bs →
      bs.getD 4 0 = ((m.members.getD []).length <<< 2 ||| m.verb)) ∧
    (∀ sourceIP bytes : List Nat,
      adler32 (bytes.drop 4) = decodeUint32 bytes 0 →
      bytes.length = 11 + (bytes.getD 4 0 >>> 2) * (9 + ipLen + ipLen) →
      ∃ mm, decodeMessage ipLen sourceIP bytes = .result mm none ∧
        mm.verb = bytes.getD 4 0 &&& 3 ∧
        (mm.members.getD []).length = bytes.getD 4 0 >>> 2) ∧
    ((5 <<< 2 ||| verbAck) = 0x15 ∧ 0x15 &&& 3 = verbAck ∧
      0x15 >>> 2 = 5) := by
  refine ⟨?_, ?_, by decide⟩
  · intro m s bs hsend hcount hverb henc
    unfold encode at henc
    rw [hsend] at henc
    rw [(Option.some.inj henc).symm]
    rw [getD_skip (encodeUint32 (adler32 (encodeBody ipLen m s)))
      (encodeBody ipLen m s) 4 0 (by simp [encodeUint32])]
    have hh : (encodeBody ipLen m s).getD 0 0 =
        ((m.members.getD []).length % 256 * 4 % 256 ||| m.verb % 256) := rfl
    rw [hh, Nat.mod_eq_of_lt (show (m.members.getD []).length < 256 by omega),
      Nat.mod_eq_of_lt (show (m.members.getD []).length * 4 < 256 by omega),
      Nat.mod_eq_of_lt hverb, Nat.shiftLeft_eq]
  · intro sourceIP bytes hck hlen
    obtain ⟨mm, h1, h2, h3, -, -, -⟩ :=
      decodeMessage_exactLength ipLen sourceIP bytes hck hlen
    exact ⟨mm, h1, h2, h3⟩

set_option maxRecDepth 4096 in
/-- C6 witness: the packed byte of a concrete encoded one-member message,
and the decode of the concrete 0x15 datagram. -/
theorem claim_C6_witness :
    ((encode 4 c3msg).getD []).getD 4 0 =
      ((c3msg.members.getD []).length <<< 2 ||| c3msg.verb) ∧
    (∃ mm, decodeMessage 4 [1, 2, 3, 4] c6bytes = .result mm none ∧
      mm.verb = c6bytes.getD 4 0 &&& 3 ∧
      (mm.members.getD []).length = c6bytes.getD 4 0 >>> 2) :=
  ⟨(claim_C6_packedByte 4).1 c3msg ⟨[10, 0, 0, 1], 1⟩
      ((encode 4 c3msg).getD []) rfl (by decide) (by decide) rfl,
   (claim_C6_packedByte 4).2.1 [1, 2, 3, 4] c6bytes (by decide) (by decide)⟩

/-- Dropping whole slots from the concatenated member slots lands exactly on
a member boundary. -/
theorem flatMap_memberSlot_drop (ipLen : Nat) (i : Nat) :
    ∀ (mems : List messageMember), (∀ mem ∈ mems, wfMember ipLen mem) →
      (mems.flatMap (memberSlot ipLen)).drop (i * (9 + ipLen + ipLen)) =
        (mems.drop i).flatMap (memberSlot ipLen) := by
  induction i with
  | zero => intro mems h; simp
  | succ i ih =>
      intro mems h
      cases mems with
      | nil => simp
      | cons mem t =>
          have hw : (memberSlot ipLen mem).length = 9 + ipLen + ipLen :=
            memberSlot_length ipLen mem (h mem (by simp))
          rw [List.flatMap_cons,
            show (i + 1) * (9 + ipLen + ipLen) =
              (memberSlot ipLen mem).length + i * (9 + ipLen + ipLen) from by
                rw [hw]; ring,
            ← List.drop_drop, List.drop_left,
            ih t (fun x hx => h x (by simp [hx]))]
          simp

/-- In the slot of a member without a gossip source, the trailing
`ipLen + 2` bytes (source IP and source port region) are all zero. -/
theorem memberSlot_none_zeros (ipLen : Nat) (mem : messageMember)
    (hsrc : mem.source = none) (hnip : mem.node.ip.length = ipLen)
    (rest : List Nat) :
    ((memberSlot ipLen mem ++ rest).drop (7 + ipLen)).take (ipLen + 2) =
      List.replicate (ipLen + 2) 0 := by
  have e : memberSlot ipLen mem ++ rest =
      (mem.status % 256 :: (mem.node.ip ++ (encodeUint16 mem.node.port ++
        encodeUint32 mem.heartbeat))) ++
        (List.replicate (ipLen + 2) 0 ++ rest) := by
    simp [memberSlot, hsrc, List.append_assoc]
  rw [e, List.drop_left' (by simp [hnip, encodeUint16, encodeUint32]; omega),
    List.take_left' (by simp)]

/-- C7: the encoded datagram of a message with `n` members has length
exactly `11 + n * (9 + 2*ipLen)`, plus `8 + ipLen + payloadLength` when a
broadcast is present; each member occupies a fixed-width slot, and for a
member without a gossip source the `ipLen + 2` source-IP/source-port bytes
of its slot are zero. -/
theorem claim_C7_encodeLength (ipLen : Nat) (m : message) (s : Node)
    (bs : List Nat) (hsend : m.sender = some s)
    (hmem : ∀ mem ∈ m.members.getD [], wfMember ipLen mem)
    (hbc : wfOptBroadcast ipLen m.broadcast)
    (henc : encode ipLen m = some bs) :
    bs.length = 11 + (m.members.getD []).length * (9 + 2 * ipLen) +
      (match m.broadcast with
       | some b => 8 + ipLen + b.bytes.length
       | none => 0) ∧
    (∀ i mem, (m.members.getD [])[i]? = some mem → mem.source = none →
      (bs.drop (11 + i * (9 + 2 * ipLen) + 7 + ipLen)).take (ipLen + 2) =
        List.replicate (ipLen + 2) 0) := by
  have hbs : bs = encodeUint32 (adler32 (encodeBody ipLen m s)) ++
      encodeBody ipLen m s := by
    unfold encode at henc
    rw [hsend] at henc
    exact (Option.some.inj henc).symm
  have hflatlen := flatMap_memberSlot_length ipLen _ hmem
  have hdrop11 : bs.drop 11 =
      (m.members.getD []).flatMap (memberSlot ipLen) ++
        (match m.broadcast with
         | some b => b.encode
         | none => []) := by
    rw [hbs]
    have e : encodeUint32 (adler32 (encodeBody ipLen m s)) ++
        encodeBody ipLen m s =
        (encodeUint32 (adler32 (encodeBody ipLen m s)) ++
          (((m.members.getD []).length % 256 * 4 % 256 ||| m.verb % 256) ::
            (encodeUint16 s.port ++ encodeUint32 m.senderHeartbeat))) ++
          ((m.members.getD []).flatMap (memberSlot ipLen) ++
            (match m.broadcast with
             | some b => b.encode
             | none => [])) := by
      simp [encodeBody, List.append_assoc]
    rw [e, List.drop_left' (by simp [encodeUint16, encodeUint32])]
  constructor
  · rw [hbs]
    cases hbcast : m.broadcast with
    | none =>
        simp only [encodeBody, hbcast, List.length_append, List.length_cons,
          hflatlen, encodeUint16, encodeUint32, List.length_nil]
        simp
        ring
    | some b =>
        have hbwf' : wfBroadcast ipLen b := by rw [hbcast] at hbc; exact hbc
        have hbl := broadcastEncode_length b ipLen hbwf'
        simp only [encodeBody, hbcast, List.length_append, List.length_cons,
          hflatlen, encodeUint16, encodeUint32, hbl]
        simp
        ring
  · intro i mem hi hsrc
    obtain ⟨hilt, he⟩ := List.getElem?_eq_some.mp hi
    have hmemwf := hmem mem (List.getElem?_mem hi)
    have hdropmem : (m.members.getD []).drop i =
        mem :: (m.members.getD []).drop (i + 1) := by
      rw [List.drop_eq_getElem_cons hilt, he]
    have hiw : i * (9 + ipLen + ipLen) ≤
        ((m.members.getD []).flatMap (memberSlot ipLen)).length := by
      rw [hflatlen]
      exact Nat.mul_le_mul_right _ (by omega)
    rw [hbs] at hdrop11 ⊢
    rw [show 11 + i * (9 + 2 * ipLen) + 7 + ipLen =
        11 + (i * (9 + ipLen + ipLen) + (7 + ipLen)) from by ring,
      ← List.drop_drop, hdrop11, ← List.drop_drop,
      List.drop_append_of_le_length hiw,
      flatMap_memberSlot_drop ipLen i _ hmem, hdropmem, List.flatMap_cons,
      List.append_assoc]
    exact memberSlot_none_zeros ipLen mem hsrc hmemwf.1.1 _

/-- A member without a gossip source, for the fixed-width-slot witness. -/
def c7member : messageMember :=
  { source := none, heartbeat := 7, node := ⟨[10, 0, 0, 2], 8000⟩,
    status := statusAlive }

/-- A one-member message carrying a broadcast, for the length witness. -/
def c7msg : message :=
  { sender := some ⟨[10, 0, 0, 1], 7946⟩, senderHeartbeat := 42,
    verb := verbPing, members := some [c7member],
    broadcast := some ⟨⟨[10, 0, 0, 1], 7946⟩, 3, [9, 8, 7]⟩ }

/-- C7 witness: the length formula and the zeroed source region of a
concrete encoded message. -/
theorem claim_C7_witness :
    ((encode 4 c7msg).getD []).length =
      11 + (c7msg.members.getD []).length * (9 + 2 * 4) +
        (match c7msg.broadcast with
         | some b => 8 + 4 + b.bytes.length
         | none => 0) ∧
    (((encode 4 c7msg).getD []).drop
        (11 + 0 * (9 + 2 * 4) + 7 + 4)).take (4 + 2) =
      List.replicate (4 + 2) 0 :=
  ⟨(claim_C7_encodeLength 4 c7msg ⟨[10, 0, 0, 1], 7946⟩
      ((encode 4 c7msg).getD []) rfl (by decide) (by decide) rfl).1,
   (claim_C7_encodeLength 4 c7msg ⟨[10, 0, 0, 1], 7946⟩
      ((encode 4 c7msg).getD []) rfl (by decide) (by decide) rfl).2
     0 c7member rfl rfl⟩

/-- Reading inside a dropped list, reindexed to the original list. -/
theorem getD_drop (l : List Nat) (n k : Nat) :
    (l.drop n).getD k 0 = l.getD (n + k) 0 := by
  simp [List.getD_eq_getElem?_getD, List.getElem?_drop]

/-- Decoded members carry their status byte verbatim: the `i`-th decoded
member's status is exactly the first byte of the `i`-th wire slot, with no
range validation. -/
theorem decodeMembers_status_verbatim (ipLen c : Nat) :
    ∀ (bytes : List Nat) (ms : List messageMember),
      decodeMembers ipLen c bytes = some ms →
      ∀ (i : Nat) (mem : messageMember), ms[i]? = some mem →
        mem.status = bytes.getD (i * (9 + ipLen + ipLen)) 0 := by
  intro bytes
  generalize hn : bytes.length = n
  induction n using Nat.strong_induction_on generalizing bytes with
  | _ n ih =>
      intro ms hms i mem hi
      rw [decodeMembers.eq_def] at hms
      by_cases h0 : bytes.length = 0
      · rw [dif_pos h0] at hms
        rw [← Option.some.inj hms] at hi
        simp at hi
      · rw [dif_neg h0] at hms
        by_cases hs : bytes.length < 9 + ipLen + ipLen
        · rw [dif_pos hs] at hms
          exact Option.noConfusion hms
        · rw [dif_neg hs] at hms
          cases hrec : decodeMembers ipLen c
              (bytes.drop (9 + ipLen + ipLen)) with
          | none =>
              simp only [hrec] at hms
              exact Option.noConfusion hms
          | some rest =>
              simp only [hrec] at hms
              rw [← Option.some.inj hms] at hi
              cases i with
              | zero => simp at hi; rw [← hi]; simp
              | succ i =>
                  simp only [List.getElem?_cons_succ] at hi
                  have := ih (bytes.drop (9 + ipLen + ipLen)).length
                    (by simp only [List.length_drop]; omega)
                    (bytes.drop (9 + ipLen + ipLen)) rfl rest hrec i mem hi
                  rw [this, getD_drop]
                  congr 1
                  ring

/-- A 17-byte IPv4 member slot whose status byte (7) is outside the known
status ordinals. -/
def c8slot : List Nat := 7 :: List.replicate 16 0

/-- The member that slot decodes to: status 7, taken verbatim. -/
def c8member : messageMember :=
  { source := some ⟨[0, 0, 0, 0], 0⟩, heartbeat := 0,
    node := ⟨[0, 0, 0, 0], 0⟩, status := 7 }

/-- Decoding the out-of-range-status slot succeeds, with the raw byte as
the member status. -/
theorem c8slot_decode : decodeMembers 4 1 c8slot = some [c8member] := by
  have e : c8slot = 7 :: ([0, 0, 0, 0] ++ (encodeUint16 0 ++
      (encodeUint32 0 ++ ([0, 0, 0, 0] ++ (encodeUint16 0 ++ []))))) := rfl
  have hnil : decodeMembers 4 1 [] = some [] := by
    rw [decodeMembers.eq_def]; simp
  rw [e, decodeMembers_slot 4 1 7 [0, 0, 0, 0] 0 0 [0, 0, 0, 0] 0 []
      rfl (by decide) (by decide) rfl (by decide), hnil]
  rfl

/-- C8: the claim that an out-of-range member-status wire byte is treated
as a decode error is false: `decodeMembers` coerces the byte silently, so
the slot with status byte 7 (no such ordinal) decodes without error to a
member whose status is 7. -/
theorem claim_C8_counterexample :
    decodeMembers 4 1 c8slot = some [c8member] ∧
    c8member.status ∉
      [statusUnknown, statusAlive, statusSuspected, statusDead,
        statusForwardTo] ∧
    (∀ e : DecodeError, decodeMembers 4 1 c8slot ≠ none) :=
  ⟨c8slot_decode, by decide, fun _ => by rw [c8slot_decode]; exact fun h => Option.noConfusion h⟩

/-- C8 (amended): decode performs no validation of the status byte — every
wire byte, inside or outside the known ordinals, is stored verbatim as the
member's status (the identity mapping on the ordinal byte), and encode
writes the status ordinal byte verbatim (mod 256). -/
theorem claim_C8_statusByteVerbatim (ipLen c : Nat) :
    (∀ (bytes : List Nat) (ms : List messageMember),
      decodeMembers ipLen c bytes = some ms →
      ∀ (i : Nat) (mem : messageMember), ms[i]? = some mem →
        mem.status = bytes.getD (i * (9 + ipLen + ipLen)) 0) ∧
    (∀ mem : messageMember,
      (memberSlot ipLen mem).getD 0 0 = mem.status % 256) :=
  ⟨decodeMembers_status_verbatim ipLen c, fun _ => rfl⟩

/-- C8 witness: the verbatim status of the concrete slot, and the encoded
status byte of a concrete member. -/
theorem claim_C8_witness :
    c8member.status = c8slot.getD (0 * (9 + 4 + 4)) 0 ∧
    (memberSlot 4 c7member).getD 0 0 = c7member.status % 256 :=
  ⟨(claim_C8_statusByteVerbatim 4 1).1 c8slot [c8member] c8slot_decode 0
      c8member rfl,
   (claim_C8_statusByteVerbatim 4 1).2 c7member⟩

/-- A one-member PING message whose member has no gossip source. -/
def c1cxMsg : message :=
  { sender := some ⟨[10, 0, 0, 1], 7946⟩, senderHeartbeat := 42,
    verb := verbPing, members := some [c7member], broadcast := none }

/-- What decoding the encoding of `c1cxMsg` actually returns: the absent
gossip source has become the zero-address node resolved through the
directory. -/
def c1cxDecoded : message :=
  { sender := some ⟨[10, 0, 0, 1], 7946⟩, senderHeartbeat := 42,
    verb := verbPing,
    members := some [⟨some ⟨[0, 0, 0, 0], 0⟩, 7, ⟨[10, 0, 0, 2], 8000⟩,
      statusAlive⟩],
    broadcast := none }

/-- The single member slot of the encoded `c1cxMsg`. -/
def c1slot : List Nat :=
  statusAlive :: ([10, 0, 0, 2] ++ (encodeUint16 8000 ++ (encodeUint32 7 ++
    ([0, 0, 0, 0] ++ (encodeUint16 0 ++ [])))))

/-- The body (bytes 4..) of the encoded `c1cxMsg`. -/
def c1body : List Nat :=
  4 :: (encodeUint16 7946 ++ (encodeUint32 42 ++ c1slot))

/-- The full encoded datagram of `c1cxMsg`. -/
def c1bytes : List Nat := encodeUint32 (adler32 c1body) ++ c1body

/-- C1: the round-trip claim fails as stated: a well-formed message whose
member carries no gossip source does not decode back field-for-field —
the zero-filled source bytes resolve through the node directory to the
zero-address node `0.0.0.0:0` instead of an absent source. -/
theorem claim_C1_counterexample :
    decodeMessage 4 [10, 0, 0, 1] ((encode 4 c1cxMsg).getD []) =
      .result c1cxDecoded none ∧
    ¬ msgEquiv c1cxMsg c1cxDecoded ∧
    (c1cxMsg.members.getD []).map messageMember.source = [none] ∧
    (c1cxDecoded.members.getD []).map messageMember.source =
      [some ⟨[0, 0, 0, 0], 0⟩] := by
  refine ⟨?_, by decide, by decide, by decide⟩
  have hconv : (encode 4 c1cxMsg).getD [] = c1bytes := rfl
  rw [hconv]
  obtain ⟨hr0, hr4d, hr4, hr5, hr7, hr11, hrlen⟩ :=
    header_reads c1bytes (adler32 c1body) 4 7946 42 c1slot rfl
      (adler32_lt _) (by decide) (by decide)
  have hback : (4 : Nat) :: (encodeUint16 7946 ++ (encodeUint32 42 ++
      c1slot)) = c1body := rfl
  have hslotlen : c1slot.length = 17 := by decide
  have hlen28 : c1bytes.length = 28 := by rw [hrlen, hslotlen]
  have hnil : decodeMembers 4 1 [] = some [] := by
    rw [decodeMembers.eq_def]; simp
  have hdm : decodeMembers 4 1 c1slot =
      some [⟨some ⟨[0, 0, 0, 0], 0⟩, 7, ⟨[10, 0, 0, 2], 8000⟩,
        statusAlive⟩] := by
    rw [show c1slot = statusAlive :: ([10, 0, 0, 2] ++ (encodeUint16 8000 ++
        (encodeUint32 7 ++ ([0, 0, 0, 0] ++ (encodeUint16 0 ++ [])))))
      from rfl,
      decodeMembers_slot 4 1 statusAlive [10, 0, 0, 2] 8000 7 [0, 0, 0, 0]
        0 [] rfl (by decide) (by decide) rfl (by decide), hnil]
    rfl
  unfold decodeMessage
  rw [if_neg (by omega)]
  simp only [hr4d, hback, hr0]
  rw [if_neg (by simp)]
  rw [if_neg (by omega)]
  simp only [hr4, hr5, hr7]
  simp only [show (4 : Nat) &&& 3 = 0 from rfl,
    show (4 : Nat) >>> 2 = 1 from rfl]
  rw [if_pos (by omega), if_neg (by omega), hr11,
    show (1 * (9 + 4 + 4) : Nat) = 17 from rfl,
    show c1slot.take 17 = c1slot from rfl, hdm]
  simp only []
  rw [if_neg (by omega)]
  rfl

/-- C1 (amended): for a well-formed message whose sender is present and
every member's gossip source is present, decoding the encoding from the
sender's own IP returns, with no error, a message equal field-for-field
(verb, sender heartbeat, sender identity, members pointwise by status,
heartbeat, node identity and source identity, and broadcast) — nodes
compared by the (IP, port) identity the directory resolves. -/
theorem claim_C1_roundtrip (ipLen : Nat) (m : message) (s : Node)
    (bs : List Nat) (hsend : m.sender = some s) (hwf : wfMessage ipLen m)
    (hsrc : ∀ mem ∈ m.members.getD [], mem.source ≠ none)
    (henc : encode ipLen m = some bs) :
    ∃ mm, decodeMessage ipLen s.ip bs = .result mm none ∧ msgEquiv m mm :=
  decode_encode_roundtrip ipLen m s bs hsend hwf hsrc henc

/-- A fully populated well-formed message whose member has a present
gossip source, for the round-trip witness. -/
def c1wMsg : message :=
  { sender := some ⟨[10, 0, 0, 1], 7946⟩, senderHeartbeat := 42,
    verb := verbAck,
    members := some [⟨some ⟨[10, 0, 0, 3], 9000⟩, 7, ⟨[10, 0, 0, 2], 8000⟩,
      statusSuspected⟩],
    broadcast := some ⟨⟨[10, 0, 0, 1], 7946⟩, 1, [1, 2, 3]⟩ }

/-- C1 witness: the round trip at a concrete message with a member, a
gossip source and a broadcast. -/
theorem claim_C1_witness :
    ∃ mm, decodeMessage 4 (Node.ip ⟨[10, 0, 0, 1], 7946⟩)
        ((encode 4 c1wMsg).getD []) = .result mm none ∧
      msgEquiv c1wMsg mm :=
  claim_C1_roundtrip 4 c1wMsg ⟨[10, 0, 0, 1], 7946⟩
    ((encode 4 c1wMsg).getD []) rfl (by decide) (by decide) rfl
